import Mathlib

/-!
Verification of the node-contraction engine of the contraction-hierarchies
contractor, `include/contractor/graph_contractor.hpp`.

The shallow embedding below follows `GraphContractor::ContractNode` (lines
120-323) and `ThreadDataContainer::GetThreadData` (lines 78-89) statement by
statement.  The bounded witness search `ContractorDijkstra` lives in
`contractor/contractor_dijkstra.hpp`, outside the analysed sources; its heap
state is modelled from the spec (section 4.1) as the list of inserted
`(node, key)` entries, and its `Run` member is an opaque parameter mapping the
pre-run heap and the bounds passed at the call site to the post-run heap.
-/

namespace OSRM

/-- Edge payload of the contractor graph (`ContractorEdgeData`): weight,
duration, represented original-edge count, via-node id, shortcut flag and the
two independent direction flags. -/
structure ContractorEdgeData where
  weight : Int
  duration : Int
  originalEdges : Int
  id : Nat
  shortcut : Bool
  forward : Bool
  backward : Bool
deriving DecidableEq

/-- A directed edge record of the contractor graph (`ContractorEdge`). -/
structure ContractorEdge where
  source : Nat
  target : Nat
  data : ContractorEdgeData
deriving DecidableEq

/-- One adjacency record of the dynamic graph, as read through `GetTarget` and
`GetEdgeData`. -/
structure AdjEdge where
  target : Nat
  data : ContractorEdgeData
deriving DecidableEq

/-- The adjacency view of the graph used by `ContractNode`:
`graph.GetAdjacentEdgeRange(node)` yields the records of `adj node`. -/
structure Graph where
  adj : Nat → List AdjEdge

/-- Mirrors `inserted_edges.emplace_back(source, target, weight, duration,
originalEdges, id, shortcut, forward, backward)`. -/
def mkContractorEdge (source target : Nat) (weight duration originalEdges : Int)
    (id : Nat) (shortcut forward backward : Bool) : ContractorEdge :=
  ⟨source, target, ⟨weight, duration, originalEdges, id, shortcut, forward, backward⟩⟩

/-- The `int32` maximum, `INVALID_EDGE_WEIGHT`, used as the infinite
distance. -/
def INVALID_EDGE_WEIGHT : Int := 2147483647

/-- Modelled from the spec: entry of the witness-search heap of
`ContractorDijkstra` (outside the analysed sources).  Per spec 4.1 the callers
pre-mark each target with weight infinity and read settled distances back via a
key lookup, so the relevant state is the inserted `(node, key)` list. -/
abbrev HeapEntry := Nat × Int

/-- Modelled from the spec: `dijkstra.WasInserted(node)`. -/
def wasInserted (heap : List HeapEntry) (n : Nat) : Bool :=
  heap.any (fun p => p.1 == n)

/-- Modelled from the spec: `dijkstra.GetKey(node)` reads a settled distance
back by key lookup; a node that was never inserted reads as infinity. -/
def getKey (heap : List HeapEntry) (n : Nat) : Int :=
  match heap.find? (fun p => p.1 == n) with
  | some p => p.2
  | none => INVALID_EDGE_WEIGHT

/-- Modelled from the spec: `dijkstra.Run(number_of_targets,
search_space_size, max_weight, node, graph)` is implemented outside the
analysed sources, so the bounded search is an opaque parameter mapping the
pre-run heap and the bounds to the post-run heap (the graph argument of the
member function is captured by the parameter itself). -/
abbrev RunFn := List HeapEntry → Nat → Int → Int → Nat → List HeapEntry

/-- Record of one `dijkstra.Run` invocation made by `ContractNode`, holding the
seeded source, the heap contents at the call, and the arguments passed. -/
structure RunCall where
  source : Nat
  heap : List HeapEntry
  numberOfTargets : Nat
  searchSpaceSize : Int
  maxWeight : Int
  node : Nat
deriving DecidableEq

/-- `ContractionStats` (lines 54-65). -/
structure ContractionStats where
  edges_deleted_count : Int
  edges_added_count : Int
  original_edges_deleted_count : Int
  original_edges_added_count : Int
deriving DecidableEq

/-- The zero-initialised `ContractionStats`. -/
def zeroStats : ContractionStats := ⟨0, 0, 0, 0⟩

/-- Lines 143-144: `++stats->edges_deleted_count;
stats->original_edges_deleted_count += in_data.originalEdges;`. -/
def bumpDeleted (s : ContractionStats) (orig : Int) : ContractionStats :=
  { s with
    edges_deleted_count := s.edges_deleted_count + 1,
    original_edges_deleted_count := s.original_edges_deleted_count + orig }

/-- Lines 183-185 and 255-257: add two shortcuts to the added counters. -/
def bumpAdded (s : ContractionStats) (orig : Int) : ContractionStats :=
  { s with
    edges_added_count := s.edges_added_count + 2,
    original_edges_added_count := s.original_edges_added_count + 2 * orig }

/-- `node_weights[i]` vector read. -/
def nwGet (nw : List Int) (i : Nat) : Int := nw.getD i 0

/-- The source→target half of an inserted shortcut pair: `SHORTCUT_ARC`,
`FORWARD_DIRECTION_ENABLED`, `REVERSE_DIRECTION_DISABLED`, via-node `node`,
weight and duration the sums, original-edge count the sum. -/
def fwdShortcut (node source : Nat) (inD : ContractorEdgeData) (outE : AdjEdge) :
    ContractorEdge :=
  mkContractorEdge source outE.target (inD.weight + outE.data.weight)
    (inD.duration + outE.data.duration) (outE.data.originalEdges + inD.originalEdges)
    node true true false

/-- The target→source half of an inserted shortcut pair: `SHORTCUT_ARC`,
`FORWARD_DIRECTION_DISABLED`, `REVERSE_DIRECTION_ENABLED`. -/
def bwdShortcut (node source : Nat) (inD : ContractorEdgeData) (outE : AdjEdge) :
    ContractorEdge :=
  mkContractorEdge outE.target source (inD.weight + outE.data.weight)
    (inD.duration + outE.data.duration) (outE.data.originalEdges + inD.originalEdges)
    node true false true

/-- State threaded through the first scan over outgoing edges while one
incoming edge is processed (lines 151-224). -/
structure ScanState where
  node_weights : List Int
  stats : ContractionStats
  inserted_edges : List ContractorEdge
  max_weight : Int
  number_of_targets : Nat
  heap : List HeapEntry

/-- Body of the first loop over outgoing edges, lines 156-224.  The inner
`BOOST_ASSERT(stats != nullptr)` at line 182 re-checks a pointer that was
already checked at line 142 for the same incoming edge, so it cannot fire here
and has no effect.  Note that line 172 compares the loop weight against
`node_weights[node]` (the node being contracted), while both updates write
`node_weights[source]`. -/
def scanStep (sim : Bool) (node source : Nat) (inD : ContractorEdgeData)
    (st : ScanState) (outE : AdjEdge) : ScanState :=
  if outE.data.forward = false then st
  else if node = outE.target then st
  else
    let path_weight := inD.weight + outE.data.weight
    if outE.target = source then
      if path_weight < nwGet st.node_weights node then
        if sim then
          { st with
            node_weights := st.node_weights.set source (path_weight + 1),
            stats := bumpAdded st.stats (outE.data.originalEdges + inD.originalEdges) }
        else
          { st with
            node_weights := st.node_weights.set source path_weight,
            inserted_edges := st.inserted_edges
              ++ [fwdShortcut node source inD outE, bwdShortcut node source inD outE] }
      else st
    else
      let st1 := { st with max_weight := max st.max_weight path_weight }
      if wasInserted st1.heap outE.target = false then
        { st1 with
          heap := st1.heap ++ [(outE.target, INVALID_EDGE_WEIGHT)],
          number_of_targets := st1.number_of_targets + 1 }
      else st1

/-- Body of the re-scan over outgoing edges after the witness search, lines
237-282; `keyOf` is `dijkstra.GetKey` on the post-run heap.  The inner
`BOOST_ASSERT(stats != nullptr)` at line 254 re-checks the pointer already
checked at line 142 and has no effect. -/
def rescanStep (sim : Bool) (node source : Nat) (inD : ContractorEdgeData)
    (keyOf : Nat → Int) (st : ContractionStats × List ContractorEdge) (outE : AdjEdge) :
    ContractionStats × List ContractorEdge :=
  if outE.data.forward = false then st
  else if outE.target = node then st
  else
    let path_weight := inD.weight + outE.data.weight
    if path_weight < keyOf outE.target then
      if sim then (bumpAdded st.1 (outE.data.originalEdges + inD.originalEdges), st.2)
      else (st.1, st.2
        ++ [fwdShortcut node source inD outE, bwdShortcut node source inD outE])
    else st

/-- `SIMULATION_SEARCH_SPACE_SIZE` (line 228). -/
def SIMULATION_SEARCH_SPACE_SIZE : Int := 1000

/-- `FULL_SEARCH_SPACE_SIZE` (line 234). -/
def FULL_SEARCH_SPACE_SIZE : Int := 2000

/-- State of one `ContractNode` call.  During the loop over incoming edges the
`inserted_edges` field holds only the records this call appended: the loop
never reads the pre-existing prefix of the thread buffer, which is re-attached
by `contractNode` (the source dedups exactly from index `inserted_edges_size`).
The `runs` field records every `dijkstra.Run` invocation. -/
structure CNState where
  node_weights : List Int
  stats : ContractionStats
  inserted_edges : List ContractorEdge
  runs : List RunCall
deriving DecidableEq

/-- Processing of one backward-traversable incoming edge, lines 151-282:
clear and seed the heap from `source` (weight 0), scan the outgoing edges,
run the witness search with the mode's search-space budget and the maximal
candidate weight, then re-scan the outgoing edges against the settled keys. -/
def processInEdge (run : RunFn) (sim : Bool) (g : Graph) (node : Nat)
    (inE : AdjEdge) (st : CNState) : CNState :=
  let source := inE.target
  let s1 := (g.adj node).foldl (scanStep sim node source inE.data)
    ⟨st.node_weights, st.stats, st.inserted_edges, 0, 0, [(source, 0)]⟩
  let space := if sim then SIMULATION_SEARCH_SPACE_SIZE else FULL_SEARCH_SPACE_SIZE
  let heap1 := run s1.heap s1.number_of_targets space s1.max_weight node
  let p := (g.adj node).foldl (rescanStep sim node source inE.data (getKey heap1))
    (s1.stats, s1.inserted_edges)
  { node_weights := s1.node_weights
    stats := p.1
    inserted_edges := p.2
    runs := st.runs ++ [⟨source, s1.heap, s1.number_of_targets, space, s1.max_weight, node⟩] }

/-- One iteration of the loop over incoming edges (lines 133-283), after the
`BOOST_ASSERT` at line 142 has passed: skip a self-loop, count the deletion in
simulation mode, and process the edge if it is traversable backward. -/
def contractStepCore (run : RunFn) (sim : Bool) (g : Graph) (node : Nat)
    (st : CNState) (inE : AdjEdge) : CNState :=
  if inE.target = node then st
  else
    let st1 := if sim then { st with stats := bumpDeleted st.stats inE.data.originalEdges }
      else st
    if inE.data.backward = false then st1
    else processInEdge run sim g node inE st1

/-- One iteration of the loop over incoming edges including the contract check:
`BOOST_ASSERT(stats != nullptr)` at line 142 is reached in simulation mode for
every adjacent edge whose other endpoint differs from `node`, and firing is
rendered as `none`. -/
def contractStep (run : RunFn) (sim : Bool) (g : Graph) (node : Nat) (statsNull : Bool)
    (acc : Option CNState) (inE : AdjEdge) : Option CNState :=
  match acc with
  | none => none
  | some st =>
    if inE.target ≠ node ∧ sim = true ∧ statsNull = true then none
    else some (contractStepCore run sim g node st inE)

/-- The loop over `graph.GetAdjacentEdgeRange(node)` of lines 133-283. -/
def contractLoop (run : RunFn) (sim : Bool) (g : Graph) (node : Nat) (statsNull : Bool)
    (st0 : CNState) : Option CNState :=
  (g.adj node).foldl (contractStep run sim g node statsNull) (some st0)

/-- The key fields compared by the dedup loop, lines 294-309: `source`,
`target`, `data.weight` and `data.shortcut`. -/
def sameKey (a b : ContractorEdge) : Bool :=
  a.source == b.source && a.target == b.target &&
    a.data.weight == b.data.weight && a.data.shortcut == b.data.shortcut

/-- Lines 310-311: the later duplicate absorbs the direction flags of the
earlier one by OR. -/
def mergeFlags (a b : ContractorEdge) : ContractorEdge :=
  { b with data := { b.data with
      forward := b.data.forward || a.data.forward,
      backward := b.data.backward || a.data.backward } }

/-- Merge record `e` into the first later record sharing its key (the inner
loop of lines 292-314); leaves the list unchanged when no record matches. -/
def mergeFirstTotal (e : ContractorEdge) : List ContractorEdge → List ContractorEdge
  | [] => []
  | x :: xs => if sameKey x e then mergeFlags e x :: xs else x :: mergeFirstTotal e xs

/-- The body of the in-place dedup of lines 286-321, one outer iteration per
step: a record with a later duplicate of its key is dropped after OR-ing its
flags into that duplicate, a record without one is kept in order.  Each
iteration consumes one record and merging never grows the remainder, so the
number of remaining records bounds the iterations; the explicit fuel makes
that bound structural. -/
def dedupGo : Nat → List ContractorEdge → List ContractorEdge
  | _, [] => []
  | 0, e :: rest => e :: rest
  | fuel + 1, e :: rest =>
    if rest.any (fun other => sameKey other e) then dedupGo fuel (mergeFirstTotal e rest)
    else e :: dedupGo fuel rest

/-- The dedup of the newly inserted records, lines 286-321, rendered on the
appended suffix of the buffer. -/
def dedupLoop (l : List ContractorEdge) : List ContractorEdge := dedupGo l.length l

/-- `GraphContractor::ContractNode<RUNSIMULATION>` (lines 120-323) acting on
the mutable state it touches: the `node_weights` member, the caller's
`ContractionStats` (a null pointer is `none`), and the thread's
`inserted_edges` buffer, whose prior contents `inserted_edges` the call only
appends to.  In real mode the appended suffix is deduplicated exactly as lines
286-321 do from index `inserted_edges_size`.  A fired assertion is `none`. -/
def contractNode (run : RunFn) (sim : Bool) (g : Graph) (node : Nat)
    (node_weights : List Int) (stats? : Option ContractionStats)
    (inserted_edges : List ContractorEdge) : Option CNState :=
  match contractLoop run sim g node stats?.isNone
      ⟨node_weights, stats?.getD zeroStats, [], []⟩ with
  | none => none
  | some st =>
    some { st with inserted_edges :=
      inserted_edges ++ (if sim then st.inserted_edges else dedupLoop st.inserted_edges) }

/-- The records appended by the loop of lines 133-283 before the dedup of
lines 286-321 runs (empty when the contract check fires). -/
def rawNewEdges (run : RunFn) (sim : Bool) (g : Graph) (node : Nat)
    (node_weights : List Int) (stats? : Option ContractionStats) : List ContractorEdge :=
  match contractLoop run sim g node stats?.isNone
      ⟨node_weights, stats?.getD zeroStats, [], []⟩ with
  | none => []
  | some st => st.inserted_edges

/-- The same graph with the self-loop records at `node` (records whose other
endpoint is `node` itself) removed from `node`'s adjacency. -/
def filterSelfLoops (g : Graph) (node : Nat) : Graph :=
  ⟨fun m => if m = node then (g.adj m).filter (fun e => e.target != node) else g.adj m⟩

/-- Modelled from the spec: the `ContractorDijkstra` member
(`contractor_dijkstra.hpp`, outside the analysed sources) matters here only
through the node capacity its constructor receives. -/
structure ContractorDijkstra where
  nodes : Nat
deriving DecidableEq

/-- `ContractorThreadData` (lines 44-50). -/
structure ContractorThreadData where
  dijkstra : ContractorDijkstra
  inserted_edges : List ContractorEdge
  neighbours : List Nat
deriving DecidableEq

/-- `ContractorThreadData(NodeID nodes) : dijkstra(nodes)` (line 49). -/
def mkContractorThreadData (nodes : Nat) : ContractorThreadData :=
  ⟨⟨nodes⟩, [], []⟩

/-- `ThreadDataContainer::GetThreadData` (lines 78-89).  The tbb thread-local
slot of the calling worker is the `Option`: a missing slot is filled with a
`ContractorThreadData` built with the literal capacity `4000` (line 85; the
container's `number_of_nodes` member is ignored, line 84 is commented out),
and an existing slot is returned unchanged.  Returns the data handed to the
caller together with the updated slot. -/
def getThreadData (numberOfNodes : Int) (slot : Option ContractorThreadData) :
    ContractorThreadData × Option ContractorThreadData :=
  match slot with
  | some td => (td, some td)
  | none =>
    let td := mkContractorThreadData 4000
    (td, some td)

/-! Specification-side definitions, following the words of the spec (sections
4.3 and 8); the theorems below compare them with the embedded source. -/

/-- Auxiliary: `List.flatMap` written out. -/
def concatMap (f : α → List β) : List α → List β
  | [] => []
  | x :: xs => f x ++ concatMap f xs

/-- The outgoing edges that yield witness-search candidates for one incoming
edge: forward-traversable, not a self-loop at `node`, not a loop back to
`source` (spec 4.3 step 2, else-branch). -/
def rawCandEdges (node source : Nat) (outs : List AdjEdge) : List AdjEdge :=
  outs.filter (fun oE => oE.data.forward && oE.target != node && oE.target != source)

/-- The targets of the candidate edges, in scan order, with repetitions. -/
def rawCandTargets (node source : Nat) (outs : List AdjEdge) : List Nat :=
  (rawCandEdges node source outs).map (fun oE => oE.target)

/-- First-occurrence registration: a target already seen is not registered
again (spec 4.3 step 2: register `target` as a goal if not already
registered). -/
def registerTargets (seen : List Nat) : List Nat → List Nat
  | [] => []
  | t :: ts => if t ∈ seen then registerTargets seen ts
    else t :: registerTargets (seen ++ [t]) ts

/-- The maximum candidate path weight over the non-loop outgoing edges,
starting from 0 (spec 4.3 step 2: track the maximum candidate path weight
seen). -/
def specMaxWeight (node source : Nat) (inD : ContractorEdgeData) (outs : List AdjEdge) :
    Int :=
  (rawCandEdges node source outs).foldl (fun m oE => max m (inD.weight + oE.data.weight)) 0

/-- The heap contents at the `Run` call: the seeded source at distance 0
followed by each registered goal at infinity, in first-encounter order. -/
def specHeap (node source : Nat) (outs : List AdjEdge) : List HeapEntry :=
  (source, 0) :: (registerTargets [source] (rawCandTargets node source outs)).map
    (fun t => (t, INVALID_EDGE_WEIGHT))

/-- The `Run` invocation the spec predicts for one backward-traversable
incoming edge: all registered goals, the mode's search-space budget, and the
maximum candidate weight. -/
def specRunCall (sim : Bool) (g : Graph) (node : Nat) (inE : AdjEdge) : RunCall :=
  ⟨inE.target, specHeap node inE.target (g.adj node),
    (registerTargets [inE.target] (rawCandTargets node inE.target (g.adj node))).length,
    (if sim then SIMULATION_SEARCH_SPACE_SIZE else FULL_SEARCH_SPACE_SIZE),
    specMaxWeight node inE.target inE.data (g.adj node), node⟩

/-- One `Run` per backward-traversable non-self incoming edge, in scan
order. -/
def specRuns (sim : Bool) (g : Graph) (node : Nat) : List RunCall :=
  ((g.adj node).filter (fun e => e.target != node && e.data.backward)).map
    (specRunCall sim g node)

/-- The shortcuts the spec says the re-scan commits for one incoming edge: a
forward and a backward record for every forward-traversable non-self outgoing
edge whose combined weight strictly beats the settled distance to its
target. -/
def rescanList (node source : Nat) (inD : ContractorEdgeData) (keyOf : Nat → Int)
    (outs : List AdjEdge) : List ContractorEdge :=
  concatMap (fun oE => [fwdShortcut node source inD oE, bwdShortcut node source inD oE])
    (outs.filter (fun oE => oE.data.forward && oE.target != node
      && decide (inD.weight + oE.data.weight < keyOf oE.target)))

/-- The dedup key of a record, as a tuple. -/
def ckey (e : ContractorEdge) : Nat × Nat × Int × Bool :=
  (e.source, e.target, e.data.weight, e.data.shortcut)

/-- OR of the forward flags of all records with key `k`. -/
def orFwd (l : List ContractorEdge) (k : Nat × Nat × Int × Bool) : Bool :=
  l.any (fun x => decide (ckey x = k) && x.data.forward)

/-- OR of the backward flags of all records with key `k`. -/
def orBwd (l : List ContractorEdge) (k : Nat × Nat × Int × Bool) : Bool :=
  l.any (fun x => decide (ckey x = k) && x.data.backward)

/-! Concrete fixtures used by the witness theorems. -/

/-- A concrete `Run` that settles nothing: it returns the heap unchanged. -/
def idRun : RunFn := fun heap _ _ _ _ => heap

/-- Fixture graph for the loop-check divergence: node 0 carries a
backward-traversable incoming edge from node 1 of weight 3 and a
forward-traversable outgoing edge to node 1 of weight 4, a loop through node
0. -/
def gLoop : Graph :=
  ⟨fun m => if m = 0 then
      [⟨1, ⟨3, 3, 1, 0, false, false, true⟩⟩, ⟨1, ⟨4, 4, 1, 0, false, true, false⟩⟩]
    else []⟩

/-- Fixture graph whose contraction at node 0 inserts duplicate shortcut
records: nodes 1 and 2 are joined to node 0 in both directions with weight
1. -/
def gDup : Graph :=
  ⟨fun m => if m = 0 then
      [⟨1, ⟨1, 1, 1, 0, false, true, true⟩⟩, ⟨2, ⟨1, 1, 1, 0, false, true, true⟩⟩]
    else []⟩

/-- Fixture graph with one incoming edge (from node 1) and one non-loop
outgoing edge (to node 2). -/
def gPath : Graph :=
  ⟨fun m => if m = 0 then
      [⟨1, ⟨2, 2, 1, 0, false, false, true⟩⟩, ⟨2, ⟨3, 3, 1, 0, false, true, false⟩⟩]
    else []⟩

/-- A fixture thread-data record of capacity 9. -/
def tdNine : ContractorThreadData := mkContractorThreadData 9

/-- The state produced by really contracting node 0 of `gDup`: the four raw
shortcut records collapse into two bidirectional ones. -/
def stDup : CNState :=
  ⟨[0, 10, 10], zeroStats,
    [mkContractorEdge 2 1 2 2 2 0 true true true,
      mkContractorEdge 1 2 2 2 2 0 true true true],
    [⟨1, [(1, 0), (2, INVALID_EDGE_WEIGHT)], 1, 2000, 2, 0⟩,
      ⟨2, [(2, 0), (1, INVALID_EDGE_WEIGHT)], 1, 2000, 2, 0⟩]⟩

/-! Generic list helpers. -/

theorem concatMap_nil (f : α → List β) : concatMap f [] = [] := rfl

theorem concatMap_cons (f : α → List β) (x : α) (xs : List α) :
    concatMap f (x :: xs) = f x ++ concatMap f xs := rfl

theorem mem_concatMap {f : α → List β} {b : β} :
    ∀ {l : List α}, b ∈ concatMap f l ↔ ∃ a ∈ l, b ∈ f a := by
  intro l
  induction l with
  | nil => simp [concatMap]
  | cons x xs ih => simp [concatMap_cons, ih, List.mem_append, or_and_right, exists_or]

theorem foldl_congr_mem {f g : β → α → β} :
    ∀ (l : List α) (b : β), (∀ b' a, a ∈ l → f b' a = g b' a) →
      l.foldl f b = l.foldl g b := by
  intro l
  induction l with
  | nil => intro b _; rfl
  | cons x xs ih =>
    intro b h
    simp only [List.foldl_cons]
    rw [h b x (by simp)]
    exact ih _ fun b' a ha => h b' a (by simp [ha])

theorem foldl_filter_id {p : α → Bool} {f : β → α → β} :
    ∀ (l : List α) (b : β), (∀ b' a, a ∈ l → p a = false → f b' a = b') →
      (l.filter p).foldl f b = l.foldl f b := by
  intro l
  induction l with
  | nil => intro b _; rfl
  | cons x xs ih =>
    intro b h
    rcases hp : p x with _ | _
    · have hfc : List.filter p (x :: xs) = List.filter p xs := by
        simp [List.filter_cons, hp]
      rw [hfc, List.foldl_cons, h b x (by simp) hp]
      exact ih b fun b' a ha hpa => h b' a (by simp [ha]) hpa
    · have hfc : List.filter p (x :: xs) = x :: List.filter p xs := by
        simp [List.filter_cons, hp]
      rw [hfc, List.foldl_cons, List.foldl_cons]
      exact ih (f b x) fun b' a ha hpa => h b' a (by simp [ha]) hpa

theorem nwGet_set_ne (nw : List Int) (i m : Nat) (v : Int) (h : m ≠ i) :
    nwGet (nw.set i v) m = nwGet nw m := by
  simp [nwGet, List.getD, List.getElem?_set_ne (Ne.symm h)]

theorem wasInserted_eq_true_iff (h : List HeapEntry) (t : Nat) :
    wasInserted h t = true ↔ t ∈ h.map Prod.fst := by
  simp [wasInserted, List.any_eq_true, List.mem_map]

theorem wasInserted_eq_false_iff (h : List HeapEntry) (t : Nat) :
    wasInserted h t = false ↔ t ∉ h.map Prod.fst := by
  rw [Bool.eq_false_iff]
  exact not_congr (wasInserted_eq_true_iff h t)

/-! Unfolding helpers for the filtered scans. -/

theorem rawCandEdges_cons_pos {oE : AdjEdge} {node source : Nat} {outs : List AdjEdge}
    (hf : oE.data.forward = true) (hn : oE.target ≠ node) (hs : oE.target ≠ source) :
    rawCandEdges node source (oE :: outs) = oE :: rawCandEdges node source outs := by
  simp [rawCandEdges, List.filter_cons, hf, hn, hs]

theorem rawCandEdges_cons_neg {oE : AdjEdge} {node source : Nat} {outs : List AdjEdge}
    (h : oE.data.forward = false ∨ oE.target = node ∨ oE.target = source) :
    rawCandEdges node source (oE :: outs) = rawCandEdges node source outs := by
  rcases h with h | h | h <;> simp [rawCandEdges, List.filter_cons, h]

theorem rawCandTargets_cons_pos {oE : AdjEdge} {node source : Nat} {outs : List AdjEdge}
    (hf : oE.data.forward = true) (hn : oE.target ≠ node) (hs : oE.target ≠ source) :
    rawCandTargets node source (oE :: outs) = oE.target :: rawCandTargets node source outs := by
  simp [rawCandTargets, rawCandEdges_cons_pos hf hn hs]

theorem rawCandTargets_cons_neg {oE : AdjEdge} {node source : Nat} {outs : List AdjEdge}
    (h : oE.data.forward = false ∨ oE.target = node ∨ oE.target = source) :
    rawCandTargets node source (oE :: outs) = rawCandTargets node source outs := by
  simp [rawCandTargets, rawCandEdges_cons_neg h]

/-! Characterization of the first scan over outgoing edges (lines 156-224):
the heap handed to the witness search, the target counter and the maximal
candidate weight. -/

theorem scan_search_char (sim : Bool) (node source : Nat) (inD : ContractorEdgeData) :
    ∀ (outs : List AdjEdge) (st : ScanState),
    (outs.foldl (scanStep sim node source inD) st).heap
        = st.heap ++ (registerTargets (st.heap.map Prod.fst)
            (rawCandTargets node source outs)).map (fun t => (t, INVALID_EDGE_WEIGHT))
    ∧ (outs.foldl (scanStep sim node source inD) st).number_of_targets
        = st.number_of_targets + (registerTargets (st.heap.map Prod.fst)
            (rawCandTargets node source outs)).length
    ∧ (outs.foldl (scanStep sim node source inD) st).max_weight
        = (rawCandEdges node source outs).foldl
            (fun m oE => max m (inD.weight + oE.data.weight)) st.max_weight := by
  intro outs
  induction outs with
  | nil =>
    intro st
    simp [rawCandTargets, rawCandEdges, registerTargets]
  | cons oE rest ih =>
    intro st
    simp only [List.foldl_cons]
    rcases hf : oE.data.forward with _ | _
    · have hstep : scanStep sim node source inD st oE = st := by
        simp [scanStep, hf]
      rw [hstep, rawCandTargets_cons_neg (Or.inl hf), rawCandEdges_cons_neg (Or.inl hf)]
      exact ih st
    · by_cases hn : oE.target = node
      · have hstep : scanStep sim node source inD st oE = st := by
          simp [scanStep, hf, hn.symm]
        rw [hstep, rawCandTargets_cons_neg (Or.inr (Or.inl hn)),
          rawCandEdges_cons_neg (Or.inr (Or.inl hn))]
        exact ih st
      · have hn2 : ¬ node = oE.target := fun h => hn h.symm
        by_cases hs : oE.target = source
        · have hstep : (scanStep sim node source inD st oE).heap = st.heap
              ∧ (scanStep sim node source inD st oE).number_of_targets = st.number_of_targets
              ∧ (scanStep sim node source inD st oE).max_weight = st.max_weight := by
            simp only [scanStep]
            rw [if_neg (by simp [hf]), if_neg hn2, if_pos hs]
            split
            · split <;> exact ⟨rfl, rfl, rfl⟩
            · exact ⟨rfl, rfl, rfl⟩
          obtain ⟨h1, h2, h3⟩ := ih (scanStep sim node source inD st oE)
          rw [rawCandTargets_cons_neg (Or.inr (Or.inr hs)),
            rawCandEdges_cons_neg (Or.inr (Or.inr hs))]
          rw [h1, h2, h3, hstep.1, hstep.2.1, hstep.2.2]
          exact ⟨rfl, rfl, rfl⟩
        · rcases hw : wasInserted st.heap oE.target with _ | _
          · have hstep : scanStep sim node source inD st oE =
                { st with
                  max_weight := max st.max_weight (inD.weight + oE.data.weight),
                  heap := st.heap ++ [(oE.target, INVALID_EDGE_WEIGHT)],
                  number_of_targets := st.number_of_targets + 1 } := by
              simp only [scanStep]
              rw [if_neg (by simp [hf]), if_neg hn2, if_neg hs]
              simp only [if_pos hw]
            have hseen : oE.target ∉ st.heap.map Prod.fst :=
              (wasInserted_eq_false_iff st.heap oE.target).mp hw
            rw [hstep, rawCandTargets_cons_pos hf hn hs, rawCandEdges_cons_pos hf hn hs]
            obtain ⟨h1, h2, h3⟩ := ih
              { st with
                max_weight := max st.max_weight (inD.weight + oE.data.weight),
                heap := st.heap ++ [(oE.target, INVALID_EDGE_WEIGHT)],
                number_of_targets := st.number_of_targets + 1 }
            rw [h1, h2, h3]
            refine ⟨?_, ?_, ?_⟩
            · simp [registerTargets, hseen, List.append_assoc]
            · simp [registerTargets, hseen]
              omega
            · rfl
          · have hstep : scanStep sim node source inD st oE =
                { st with max_weight := max st.max_weight (inD.weight + oE.data.weight) } := by
              simp only [scanStep]
              rw [if_neg (by simp [hf]), if_neg hn2, if_neg hs]
              simp only [hw]
              rw [if_neg (by simp)]
            have hseen : oE.target ∈ st.heap.map Prod.fst :=
              (wasInserted_eq_true_iff st.heap oE.target).mp hw
            rw [hstep, rawCandTargets_cons_pos hf hn hs, rawCandEdges_cons_pos hf hn hs]
            obtain ⟨h1, h2, h3⟩ := ih
              { st with max_weight := max st.max_weight (inD.weight + oE.data.weight) }
            rw [h1, h2, h3]
            refine ⟨?_, ?_, ?_⟩
            · simp [registerTargets, hseen]
            · simp [registerTargets, hseen]
            · rfl

/-! Frame lemmas for the two scans: neither touches the deleted-edge counters,
and in simulation mode neither appends records. -/

theorem scanStep_frame (sim : Bool) (node source : Nat) (inD : ContractorEdgeData)
    (st : ScanState) (oE : AdjEdge) :
    (scanStep sim node source inD st oE).stats.edges_deleted_count
        = st.stats.edges_deleted_count
    ∧ (scanStep sim node source inD st oE).stats.original_edges_deleted_count
        = st.stats.original_edges_deleted_count
    ∧ (sim = true → (scanStep sim node source inD st oE).inserted_edges
        = st.inserted_edges) := by
  simp only [scanStep]
  repeat' split
  all_goals refine ⟨rfl, rfl, fun hsim => ?_⟩
  all_goals try rfl
  all_goals simp_all

theorem scan_foldl_frame (sim : Bool) (node source : Nat) (inD : ContractorEdgeData) :
    ∀ (outs : List AdjEdge) (st : ScanState),
    (outs.foldl (scanStep sim node source inD) st).stats.edges_deleted_count
        = st.stats.edges_deleted_count
    ∧ (outs.foldl (scanStep sim node source inD) st).stats.original_edges_deleted_count
        = st.stats.original_edges_deleted_count
    ∧ (sim = true → (outs.foldl (scanStep sim node source inD) st).inserted_edges
        = st.inserted_edges) := by
  intro outs
  induction outs with
  | nil => intro st; exact ⟨rfl, rfl, fun _ => rfl⟩
  | cons oE rest ih =>
    intro st
    obtain ⟨s1, s2, s3⟩ := scanStep_frame sim node source inD st oE
    obtain ⟨i1, i2, i3⟩ := ih (scanStep sim node source inD st oE)
    simp only [List.foldl_cons]
    exact ⟨i1.trans s1, i2.trans s2, fun hsim => (i3 hsim).trans (s3 hsim)⟩

theorem rescanStep_frame (sim : Bool) (node source : Nat) (inD : ContractorEdgeData)
    (keyOf : Nat → Int) (st : ContractionStats × List ContractorEdge) (oE : AdjEdge) :
    (rescanStep sim node source inD keyOf st oE).1.edges_deleted_count
        = st.1.edges_deleted_count
    ∧ (rescanStep sim node source inD keyOf st oE).1.original_edges_deleted_count
        = st.1.original_edges_deleted_count
    ∧ (sim = true → (rescanStep sim node source inD keyOf st oE).2 = st.2)
    ∧ (sim = false → (rescanStep sim node source inD keyOf st oE).1 = st.1) := by
  simp only [rescanStep]
  repeat' split
  all_goals refine ⟨rfl, rfl, fun hsim => ?_, fun hsim => ?_⟩
  all_goals try rfl
  all_goals simp_all [bumpAdded]

theorem rescan_foldl_frame (sim : Bool) (node source : Nat) (inD : ContractorEdgeData)
    (keyOf : Nat → Int) :
    ∀ (outs : List AdjEdge) (st : ContractionStats × List ContractorEdge),
    (outs.foldl (rescanStep sim node source inD keyOf) st).1.edges_deleted_count
        = st.1.edges_deleted_count
    ∧ (outs.foldl (rescanStep sim node source inD keyOf) st).1.original_edges_deleted_count
        = st.1.original_edges_deleted_count
    ∧ (sim = true → (outs.foldl (rescanStep sim node source inD keyOf) st).2 = st.2)
    ∧ (sim = false → (outs.foldl (rescanStep sim node source inD keyOf) st).1 = st.1) := by
  intro outs
  induction outs with
  | nil => intro st; exact ⟨rfl, rfl, fun _ => rfl, fun _ => rfl⟩
  | cons oE rest ih =>
    intro st
    obtain ⟨s1, s2, s3, s4⟩ := rescanStep_frame sim node source inD keyOf st oE
    obtain ⟨i1, i2, i3, i4⟩ := ih (rescanStep sim node source inD keyOf st oE)
    simp only [List.foldl_cons]
    exact ⟨i1.trans s1, i2.trans s2, fun hsim => (i3 hsim).trans (s3 hsim),
      fun hsim => (i4 hsim).trans (s4 hsim)⟩

/-! The real-mode re-scan appends exactly the shortcuts described by
`rescanList`. -/

theorem rescanList_cons_pos {oE : AdjEdge} {node source : Nat} {inD : ContractorEdgeData}
    {keyOf : Nat → Int} {outs : List AdjEdge} (hf : oE.data.forward = true)
    (hn : oE.target ≠ node) (hc : inD.weight + oE.data.weight < keyOf oE.target) :
    rescanList node source inD keyOf (oE :: outs)
      = fwdShortcut node source inD oE :: bwdShortcut node source inD oE
          :: rescanList node source inD keyOf outs := by
  simp [rescanList, List.filter_cons, hf, hn, hc, concatMap_cons]

theorem rescanList_cons_neg {oE : AdjEdge} {node source : Nat} {inD : ContractorEdgeData}
    {keyOf : Nat → Int} {outs : List AdjEdge}
    (h : oE.data.forward = false ∨ oE.target = node
      ∨ ¬ inD.weight + oE.data.weight < keyOf oE.target) :
    rescanList node source inD keyOf (oE :: outs) = rescanList node source inD keyOf outs := by
  rcases h with h | h | h <;> simp [rescanList, List.filter_cons, h]

theorem rescan_foldl_real (node source : Nat) (inD : ContractorEdgeData) (keyOf : Nat → Int) :
    ∀ (outs : List AdjEdge) (s : ContractionStats) (acc : List ContractorEdge),
    outs.foldl (rescanStep false node source inD keyOf) (s, acc)
      = (s, acc ++ rescanList node source inD keyOf outs) := by
  intro outs
  induction outs with
  | nil => intro s acc; simp [rescanList, concatMap_nil]
  | cons oE rest ih =>
    intro s acc
    simp only [List.foldl_cons]
    by_cases hf : oE.data.forward = true
    · by_cases hn : oE.target = node
      · have hstep : rescanStep false node source inD keyOf (s, acc) oE = (s, acc) := by
          simp [rescanStep, hn]
        rw [hstep, rescanList_cons_neg (Or.inr (Or.inl hn)), ih]
      · by_cases hc : inD.weight + oE.data.weight < keyOf oE.target
        · have hstep : rescanStep false node source inD keyOf (s, acc) oE
              = (s, acc ++ [fwdShortcut node source inD oE, bwdShortcut node source inD oE]) := by
            simp only [rescanStep]
            rw [if_neg (by simp [hf]), if_neg hn, if_pos hc]
            rfl
          rw [hstep, rescanList_cons_pos hf hn hc, ih]
          simp
        · have hstep : rescanStep false node source inD keyOf (s, acc) oE = (s, acc) := by
            simp only [rescanStep]
            rw [if_neg (by simp [hf]), if_neg hn, if_neg hc]
          rw [hstep, rescanList_cons_neg (Or.inr (Or.inr hc)), ih]
    · have hf2 : oE.data.forward = false := by
        rcases h : oE.data.forward with _ | _
        · rfl
        · exact absurd h hf
      have hstep : rescanStep false node source inD keyOf (s, acc) oE = (s, acc) := by
        simp [rescanStep, hf2]
      rw [hstep, rescanList_cons_neg (Or.inl hf2), ih]

/-! Localization of the `node_weights` writes: only the loop branch of the
first scan writes, always at the index of the seeded source. -/

theorem bool_true_of_not_false {b : Bool} (h : ¬ b = false) : b = true := by
  rcases b with _ | _
  · exact absurd rfl h
  · rfl

theorem scanStep_nw_frame (sim : Bool) (node source : Nat) (inD : ContractorEdgeData)
    (st : ScanState) (oE : AdjEdge) (m : Nat)
    (h : nwGet (scanStep sim node source inD st oE).node_weights m
      ≠ nwGet st.node_weights m) :
    m = source ∧ oE.data.forward = true ∧ oE.target = source := by
  simp only [scanStep] at h
  split at h
  · exact absurd rfl h
  · split at h
    · exact absurd rfl h
    · split at h
      · split at h
        · split at h
          · rename_i hff _ hs _ _
            by_cases hm : m = source
            · exact ⟨hm, bool_true_of_not_false hff, hs⟩
            · have h2 : nwGet (st.node_weights.set source
                  (inD.weight + oE.data.weight + 1)) m ≠ nwGet st.node_weights m := h
              rw [nwGet_set_ne _ _ _ _ hm] at h2
              exact absurd rfl h2
          · rename_i hff _ hs _ _
            by_cases hm : m = source
            · exact ⟨hm, bool_true_of_not_false hff, hs⟩
            · have h2 : nwGet (st.node_weights.set source
                  (inD.weight + oE.data.weight)) m ≠ nwGet st.node_weights m := h
              rw [nwGet_set_ne _ _ _ _ hm] at h2
              exact absurd rfl h2
        · exact absurd rfl h
      · split at h
        · exact absurd rfl h
        · exact absurd rfl h

theorem scan_foldl_nw_frame (sim : Bool) (node source : Nat) (inD : ContractorEdgeData) :
    ∀ (outs : List AdjEdge) (st : ScanState) (m : Nat),
    nwGet (outs.foldl (scanStep sim node source inD) st).node_weights m
        ≠ nwGet st.node_weights m →
    m = source ∧ ∃ oE ∈ outs, oE.data.forward = true ∧ oE.target = source := by
  intro outs
  induction outs with
  | nil => intro st m h; exact absurd rfl h
  | cons oE rest ih =>
    intro st m h
    simp only [List.foldl_cons] at h
    by_cases hchg : nwGet (scanStep sim node source inD st oE).node_weights m
        = nwGet st.node_weights m
    · have h2 := ih (scanStep sim node source inD st oE) m (fun he => h (he.trans hchg))
      exact ⟨h2.1, h2.2.elim fun oE2 h3 => ⟨oE2, by simp [h3.1], h3.2⟩⟩
    · obtain ⟨hm, hf, ht⟩ := scanStep_nw_frame sim node source inD st oE m hchg
      exact ⟨hm, ⟨oE, by simp, hf, ht⟩⟩

/-! Lemmas about `processInEdge`, the processing of one backward incoming
edge. -/

theorem processInEdge_runs (run : RunFn) (sim : Bool) (g : Graph) (node : Nat)
    (inE : AdjEdge) (st : CNState) :
    (processInEdge run sim g node inE st).runs = st.runs ++ [specRunCall sim g node inE] := by
  obtain ⟨h1, h2, h3⟩ := scan_search_char sim node inE.target inE.data (g.adj node)
    ⟨st.node_weights, st.stats, st.inserted_edges, 0, 0, [(inE.target, 0)]⟩
  simp only [processInEdge]
  rw [h1, h2, h3]
  simp [specRunCall, specHeap, specMaxWeight]

theorem processInEdge_deleted (run : RunFn) (sim : Bool) (g : Graph) (node : Nat)
    (inE : AdjEdge) (st : CNState) :
    (processInEdge run sim g node inE st).stats.edges_deleted_count
        = st.stats.edges_deleted_count
    ∧ (processInEdge run sim g node inE st).stats.original_edges_deleted_count
        = st.stats.original_edges_deleted_count := by
  have hs := scan_foldl_frame sim node inE.target inE.data (g.adj node)
    ⟨st.node_weights, st.stats, st.inserted_edges, 0, 0, [(inE.target, 0)]⟩
  have hr := rescan_foldl_frame sim node inE.target inE.data
    (getKey (run ((g.adj node).foldl (scanStep sim node inE.target inE.data)
        ⟨st.node_weights, st.stats, st.inserted_edges, 0, 0, [(inE.target, 0)]⟩).heap
      ((g.adj node).foldl (scanStep sim node inE.target inE.data)
        ⟨st.node_weights, st.stats, st.inserted_edges, 0, 0, [(inE.target, 0)]⟩).number_of_targets
      (if sim = true then SIMULATION_SEARCH_SPACE_SIZE else FULL_SEARCH_SPACE_SIZE)
      ((g.adj node).foldl (scanStep sim node inE.target inE.data)
        ⟨st.node_weights, st.stats, st.inserted_edges, 0, 0, [(inE.target, 0)]⟩).max_weight
      node))
    (g.adj node)
    (((g.adj node).foldl (scanStep sim node inE.target inE.data)
        ⟨st.node_weights, st.stats, st.inserted_edges, 0, 0, [(inE.target, 0)]⟩).stats,
      ((g.adj node).foldl (scanStep sim node inE.target inE.data)
        ⟨st.node_weights, st.stats, st.inserted_edges, 0, 0, [(inE.target, 0)]⟩).inserted_edges)
  exact ⟨hr.1.trans hs.1, hr.2.1.trans hs.2.1⟩

theorem processInEdge_inserted_sim (run : RunFn) (g : Graph) (node : Nat)
    (inE : AdjEdge) (st : CNState) :
    (processInEdge run true g node inE st).inserted_edges = st.inserted_edges := by
  have hs := scan_foldl_frame true node inE.target inE.data (g.adj node)
    ⟨st.node_weights, st.stats, st.inserted_edges, 0, 0, [(inE.target, 0)]⟩
  have hr := rescan_foldl_frame true node inE.target inE.data
    (getKey (run ((g.adj node).foldl (scanStep true node inE.target inE.data)
        ⟨st.node_weights, st.stats, st.inserted_edges, 0, 0, [(inE.target, 0)]⟩).heap
      ((g.adj node).foldl (scanStep true node inE.target inE.data)
        ⟨st.node_weights, st.stats, st.inserted_edges, 0, 0, [(inE.target, 0)]⟩).number_of_targets
      (if (true : Bool) = true then SIMULATION_SEARCH_SPACE_SIZE else FULL_SEARCH_SPACE_SIZE)
      ((g.adj node).foldl (scanStep true node inE.target inE.data)
        ⟨st.node_weights, st.stats, st.inserted_edges, 0, 0, [(inE.target, 0)]⟩).max_weight
      node))
    (g.adj node)
    (((g.adj node).foldl (scanStep true node inE.target inE.data)
        ⟨st.node_weights, st.stats, st.inserted_edges, 0, 0, [(inE.target, 0)]⟩).stats,
      ((g.adj node).foldl (scanStep true node inE.target inE.data)
        ⟨st.node_weights, st.stats, st.inserted_edges, 0, 0, [(inE.target, 0)]⟩).inserted_edges)
  exact (hr.2.2.1 rfl).trans (hs.2.2 rfl)

theorem processInEdge_nw_frame (run : RunFn) (sim : Bool) (g : Graph) (node : Nat)
    (inE : AdjEdge) (st : CNState) (m : Nat)
    (h : nwGet (processInEdge run sim g node inE st).node_weights m
      ≠ nwGet st.node_weights m) :
    m = inE.target ∧ ∃ oE ∈ g.adj node, oE.data.forward = true ∧ oE.target = inE.target := by
  have h2 : nwGet ((g.adj node).foldl (scanStep sim node inE.target inE.data)
      ⟨st.node_weights, st.stats, st.inserted_edges, 0, 0, [(inE.target, 0)]⟩).node_weights m
      ≠ nwGet st.node_weights m := h
  exact scan_foldl_nw_frame sim node inE.target inE.data (g.adj node)
    ⟨st.node_weights, st.stats, st.inserted_edges, 0, 0, [(inE.target, 0)]⟩ m h2

/-! Lemmas about one iteration of the incoming-edge loop. -/

theorem bool_false_of_not_true {b : Bool} (h : ¬ b = true) : b = false := by
  rcases b with _ | _
  · rfl
  · exact absurd rfl h

theorem contractStepCore_runs (run : RunFn) (sim : Bool) (g : Graph) (node : Nat)
    (st : CNState) (inE : AdjEdge) :
    (contractStepCore run sim g node st inE).runs
      = st.runs ++ (if inE.target ≠ node ∧ inE.data.backward = true
          then [specRunCall sim g node inE] else []) := by
  by_cases ht : inE.target = node
  · simp [contractStepCore, ht]
  · by_cases hb : inE.data.backward = true
    · rcases sim with _ | _ <;>
        simp [contractStepCore, ht, hb, processInEdge_runs]
    · have hb2 := bool_false_of_not_true hb
      rcases sim with _ | _ <;> simp [contractStepCore, ht, hb2]

theorem contractStepCore_deleted_sim (run : RunFn) (g : Graph) (node : Nat)
    (st : CNState) (inE : AdjEdge) :
    (contractStepCore run true g node st inE).stats.edges_deleted_count
        = st.stats.edges_deleted_count + (if inE.target = node then 0 else 1)
    ∧ (contractStepCore run true g node st inE).stats.original_edges_deleted_count
        = st.stats.original_edges_deleted_count
          + (if inE.target = node then 0 else inE.data.originalEdges) := by
  by_cases ht : inE.target = node
  · simp [contractStepCore, ht]
  · by_cases hb : inE.data.backward = true
    · have hp := processInEdge_deleted run true g node inE
        { st with stats := bumpDeleted st.stats inE.data.originalEdges }
      constructor
      · have : (contractStepCore run true g node st inE).stats.edges_deleted_count
            = (processInEdge run true g node inE
                { st with stats := bumpDeleted st.stats inE.data.originalEdges
                }).stats.edges_deleted_count := by
          simp [contractStepCore, ht, hb]
        rw [this, hp.1]
        simp [bumpDeleted, ht]
      · have : (contractStepCore run true g node st inE).stats.original_edges_deleted_count
            = (processInEdge run true g node inE
                { st with stats := bumpDeleted st.stats inE.data.originalEdges
                }).stats.original_edges_deleted_count := by
          simp [contractStepCore, ht, hb]
        rw [this, hp.2]
        simp [bumpDeleted, ht]
    · have hb2 := bool_false_of_not_true hb
      simp [contractStepCore, ht, hb2, bumpDeleted]

theorem contractStepCore_inserted_sim (run : RunFn) (g : Graph) (node : Nat)
    (st : CNState) (inE : AdjEdge) :
    (contractStepCore run true g node st inE).inserted_edges = st.inserted_edges := by
  by_cases ht : inE.target = node
  · simp [contractStepCore, ht]
  · by_cases hb : inE.data.backward = true
    · have hp := processInEdge_inserted_sim run g node inE
        { st with stats := bumpDeleted st.stats inE.data.originalEdges }
      have : (contractStepCore run true g node st inE).inserted_edges
          = (processInEdge run true g node inE
              { st with stats := bumpDeleted st.stats inE.data.originalEdges
              }).inserted_edges := by
        simp [contractStepCore, ht, hb]
      rw [this, hp]
    · have hb2 := bool_false_of_not_true hb
      simp [contractStepCore, ht, hb2]

theorem contractStepCore_nw_frame (run : RunFn) (sim : Bool) (g : Graph) (node : Nat)
    (st : CNState) (inE : AdjEdge) (m : Nat)
    (h : nwGet (contractStepCore run sim g node st inE).node_weights m
      ≠ nwGet st.node_weights m) :
    inE.target ≠ node ∧ inE.data.backward = true ∧ m = inE.target
      ∧ ∃ oE ∈ g.adj node, oE.data.forward = true ∧ oE.target = inE.target := by
  by_cases ht : inE.target = node
  · rw [show contractStepCore run sim g node st inE = st by simp [contractStepCore, ht]] at h
    exact absurd rfl h
  · by_cases hb : inE.data.backward = true
    · have heq : contractStepCore run sim g node st inE
          = processInEdge run sim g node inE
              (if sim then { st with stats := bumpDeleted st.stats inE.data.originalEdges }
                else st) := by
        simp [contractStepCore, ht, hb]
      rw [heq] at h
      rcases sim with _ | _
      · obtain ⟨hm, hev⟩ := processInEdge_nw_frame run false g node inE st m h
        exact ⟨ht, hb, hm, hev⟩
      · obtain ⟨hm, hev⟩ := processInEdge_nw_frame run true g node inE
          { st with stats := bumpDeleted st.stats inE.data.originalEdges } m h
        exact ⟨ht, hb, hm, hev⟩
    · have hb2 := bool_false_of_not_true hb
      have heq : contractStepCore run sim g node st inE
          = (if sim then { st with stats := bumpDeleted st.stats inE.data.originalEdges }
              else st) := by
        simp [contractStepCore, ht, hb2]
      rw [heq] at h
      rcases sim with _ | _
      · exact absurd rfl h
      · exact absurd rfl h

/-! Folded versions over the whole incoming-edge loop. -/

theorem contract_foldl_runs (run : RunFn) (sim : Bool) (g : Graph) (node : Nat) :
    ∀ (l : List AdjEdge) (st : CNState),
    (l.foldl (contractStepCore run sim g node) st).runs
      = st.runs ++ (l.filter (fun e => e.target != node && e.data.backward)).map
          (specRunCall sim g node) := by
  intro l
  induction l with
  | nil => intro st; simp
  | cons e rest ih =>
    intro st
    simp only [List.foldl_cons]
    rw [ih (contractStepCore run sim g node st e), contractStepCore_runs]
    by_cases ht : e.target = node
    · simp [List.filter_cons, ht]
    · by_cases hb : e.data.backward = true
      · simp [List.filter_cons, ht, hb]
      · have hb2 := bool_false_of_not_true hb
        simp [List.filter_cons, ht, hb2]

theorem contract_foldl_deleted_sim (run : RunFn) (g : Graph) (node : Nat) :
    ∀ (l : List AdjEdge) (st : CNState),
    ((l.foldl (contractStepCore run true g node) st).stats.edges_deleted_count
        = st.stats.edges_deleted_count
          + ((l.filter (fun e => e.target != node)).length : Int))
    ∧ ((l.foldl (contractStepCore run true g node) st).stats.original_edges_deleted_count
        = st.stats.original_edges_deleted_count
          + ((l.filter (fun e => e.target != node)).map (fun e => e.data.originalEdges)).sum) := by
  intro l
  induction l with
  | nil => intro st; simp
  | cons e rest ih =>
    intro st
    simp only [List.foldl_cons]
    obtain ⟨i1, i2⟩ := ih (contractStepCore run true g node st e)
    obtain ⟨s1, s2⟩ := contractStepCore_deleted_sim run g node st e
    by_cases ht : e.target = node
    · rw [i1, i2, s1, s2]
      simp [List.filter_cons, ht]
    · rw [i1, i2, s1, s2]
      have hfc : List.filter (fun e2 => e2.target != node) (e :: rest)
          = e :: List.filter (fun e2 => e2.target != node) rest := by
        simp [List.filter_cons, ht]
      rw [hfc]
      constructor
      · simp only [List.length_cons, if_neg ht]
        push_cast
        omega
      · simp only [List.map_cons, List.sum_cons, if_neg ht]
        omega

theorem contract_foldl_inserted_sim (run : RunFn) (g : Graph) (node : Nat) :
    ∀ (l : List AdjEdge) (st : CNState),
    (l.foldl (contractStepCore run true g node) st).inserted_edges = st.inserted_edges := by
  intro l
  induction l with
  | nil => intro st; rfl
  | cons e rest ih =>
    intro st
    simp only [List.foldl_cons]
    rw [ih (contractStepCore run true g node st e), contractStepCore_inserted_sim]

theorem contract_foldl_nw_frame (run : RunFn) (sim : Bool) (g : Graph) (node : Nat) :
    ∀ (l : List AdjEdge) (st : CNState) (m : Nat),
    nwGet (l.foldl (contractStepCore run sim g node) st).node_weights m
        ≠ nwGet st.node_weights m →
    m ≠ node ∧ ∃ inE ∈ l, inE.target = m ∧ inE.data.backward = true
      ∧ ∃ oE ∈ g.adj node, oE.data.forward = true ∧ oE.target = m := by
  intro l
  induction l with
  | nil => intro st m h; exact absurd rfl h
  | cons e rest ih =>
    intro st m h
    simp only [List.foldl_cons] at h
    by_cases hchg : nwGet (contractStepCore run sim g node st e).node_weights m
        = nwGet st.node_weights m
    · obtain ⟨hm, inE2, hmem, h3⟩ := ih (contractStepCore run sim g node st e) m
        (fun he => h (he.trans hchg))
      exact ⟨hm, inE2, by simp [hmem], h3⟩
    · obtain ⟨ht, hb, hm, hev⟩ := contractStepCore_nw_frame run sim g node st e m hchg
      subst hm
      exact ⟨ht, e, by simp, rfl, hb, hev⟩

/-! Bridging the optional loop (with the contract check) to the pure loop. -/

theorem contract_foldl_opt_eq_pure (run : RunFn) (sim : Bool) (g : Graph) (node : Nat)
    (statsNull : Bool) (h : (sim && statsNull) = false) :
    ∀ (l : List AdjEdge) (st : CNState),
    l.foldl (contractStep run sim g node statsNull) (some st)
      = some (l.foldl (contractStepCore run sim g node) st) := by
  intro l
  induction l with
  | nil => intro st; rfl
  | cons e rest ih =>
    intro st
    simp only [List.foldl_cons, contractStep]
    rw [if_neg (fun hc => by simp [hc.2.1, hc.2.2] at h)]
    exact ih (contractStepCore run sim g node st e)

theorem contractLoop_eq_pure (run : RunFn) (sim : Bool) (g : Graph) (node : Nat)
    (statsNull : Bool) (st0 : CNState) (h : (sim && statsNull) = false) :
    contractLoop run sim g node statsNull st0
      = some ((g.adj node).foldl (contractStepCore run sim g node) st0) :=
  contract_foldl_opt_eq_pure run sim g node statsNull h (g.adj node) st0

theorem contract_foldl_none (run : RunFn) (sim : Bool) (g : Graph) (node : Nat)
    (statsNull : Bool) :
    ∀ (l : List AdjEdge),
    l.foldl (contractStep run sim g node statsNull) none = none := by
  intro l
  induction l with
  | nil => rfl
  | cons e rest ih =>
    simp only [List.foldl_cons, contractStep]
    exact ih

theorem contract_foldl_fires (run : RunFn) (g : Graph) (node : Nat) :
    ∀ (l : List AdjEdge) (st : CNState), (∃ e ∈ l, e.target ≠ node) →
    l.foldl (contractStep run true g node true) (some st) = none := by
  intro l
  induction l with
  | nil => intro st h; simp at h
  | cons e rest ih =>
    intro st h
    by_cases ht : e.target = node
    · have hstep : contractStep run true g node true (some st) e
          = some (contractStepCore run true g node st e) := by
        simp [contractStep, ht]
      simp only [List.foldl_cons]
      rw [hstep]
      refine ih (contractStepCore run true g node st e) ?_
      rcases h with ⟨e2, hmem, hne⟩
      rcases List.mem_cons.mp hmem with he | he
      · exact absurd (he ▸ hne) (by simp [ht])
      · exact ⟨e2, he, hne⟩
    · have hstep : contractStep run true g node true (some st) e = none := by
        simp [contractStep, ht]
      simp only [List.foldl_cons]
      rw [hstep]
      exact contract_foldl_none run true g node true rest

/-! Lemmas about first-occurrence registration. -/

theorem registerTargets_not_mem_seen :
    ∀ (ts seen : List Nat) (t : Nat), t ∈ registerTargets seen ts → t ∉ seen := by
  intro ts
  induction ts with
  | nil => intro seen t h; simp [registerTargets] at h
  | cons x xs ih =>
    intro seen t h
    simp only [registerTargets] at h
    split at h
    · exact ih seen t h
    · rename_i hx
      rcases List.mem_cons.mp h with he | he
      · exact he ▸ hx
      · have h2 := ih (seen ++ [x]) t he
        intro hs
        exact h2 (by simp [hs])

theorem registerTargets_nodup : ∀ (ts seen : List Nat), (registerTargets seen ts).Nodup := by
  intro ts
  induction ts with
  | nil => intro seen; simp [registerTargets]
  | cons x xs ih =>
    intro seen
    simp only [registerTargets]
    split
    · exact ih seen
    · refine List.nodup_cons.mpr ⟨fun hmem => ?_, ih (seen ++ [x])⟩
      exact (registerTargets_not_mem_seen xs (seen ++ [x]) x hmem) (by simp)

/-! Lemmas about the dedup loop. -/

theorem ckey_mergeFlags (a b : ContractorEdge) : ckey (mergeFlags a b) = ckey b := rfl

theorem mergeFirstTotal_map_ckey (e : ContractorEdge) :
    ∀ l : List ContractorEdge, (mergeFirstTotal e l).map ckey = l.map ckey := by
  intro l
  induction l with
  | nil => rfl
  | cons x xs ih =>
    simp only [mergeFirstTotal]
    split
    · simp [ckey_mergeFlags]
    · simp [ih]

theorem sameKey_iff (a b : ContractorEdge) : sameKey a b = true ↔ ckey a = ckey b := by
  simp only [sameKey, ckey, Bool.and_eq_true, beq_iff_eq, Prod.mk.injEq]
  tauto

theorem mergeFirstTotal_length (e : ContractorEdge) :
    ∀ l : List ContractorEdge, (mergeFirstTotal e l).length = l.length := by
  intro l
  induction l with
  | nil => rfl
  | cons x xs ih =>
    simp only [mergeFirstTotal]
    split <;> simp [ih]

theorem dedupGo_subkeys : ∀ (fuel : Nat) (l : List ContractorEdge), l.length ≤ fuel →
    ∀ a ∈ dedupGo fuel l, ckey a ∈ l.map ckey := by
  intro fuel
  induction fuel with
  | zero =>
    intro l hl a ha
    cases l with
    | nil => simp [dedupGo] at ha
    | cons e rest => simp at hl
  | succ n ih =>
    intro l hl a ha
    cases l with
    | nil => simp [dedupGo] at ha
    | cons e rest =>
      simp only [dedupGo] at ha
      split at ha
      · have hlen : (mergeFirstTotal e rest).length ≤ n := by
          rw [mergeFirstTotal_length]
          simpa using hl
        have h2 := ih _ hlen a ha
        rw [mergeFirstTotal_map_ckey] at h2
        simp [h2]
      · rcases List.mem_cons.mp ha with he | he
        · simp [he]
        · have hlen : rest.length ≤ n := by simpa using hl
          simp [ih rest hlen a he]

theorem dedupLoop_subkeys (l : List ContractorEdge) : ∀ a ∈ dedupLoop l,
    ckey a ∈ l.map ckey :=
  dedupGo_subkeys l.length l le_rfl

theorem dedupGo_pairwise : ∀ (fuel : Nat) (l : List ContractorEdge), l.length ≤ fuel →
    (dedupGo fuel l).Pairwise (fun a b => ckey a ≠ ckey b) := by
  intro fuel
  induction fuel with
  | zero =>
    intro l hl
    cases l with
    | nil => simp [dedupGo]
    | cons e rest => simp at hl
  | succ n ih =>
    intro l hl
    cases l with
    | nil => simp [dedupGo]
    | cons e rest =>
      simp only [dedupGo]
      split
      · refine ih _ ?_
        rw [mergeFirstTotal_length]
        simpa using hl
      · rename_i hcond
        have hlen : rest.length ≤ n := by simpa using hl
        refine List.pairwise_cons.mpr ⟨?_, ih rest hlen⟩
        intro a ha hke
        have h1 := dedupGo_subkeys n rest hlen a ha
        rcases List.mem_map.mp h1 with ⟨o, ho, hko⟩
        have h2 : ∀ x ∈ rest, sameKey x e = false := fun x hx =>
          bool_false_of_not_true (List.any_eq_false.mp (bool_false_of_not_true hcond) x hx)
        have h3 := h2 o ho
        rw [(sameKey_iff o e).mpr (hko.trans hke.symm)] at h3
        exact absurd h3 (by simp)

theorem dedupLoop_pairwise (l : List ContractorEdge) :
    (dedupLoop l).Pairwise (fun a b => ckey a ≠ ckey b) :=
  dedupGo_pairwise l.length l le_rfl

theorem orFwd_cons (x : ContractorEdge) (l : List ContractorEdge) (k : Nat × Nat × Int × Bool) :
    orFwd (x :: l) k = (((decide (ckey x = k)) && x.data.forward) || orFwd l k) := by
  simp [orFwd]

theorem orBwd_cons (x : ContractorEdge) (l : List ContractorEdge) (k : Nat × Nat × Int × Bool) :
    orBwd (x :: l) k = (((decide (ckey x = k)) && x.data.backward) || orBwd l k) := by
  simp [orBwd]

theorem merge_orFwd (e : ContractorEdge) :
    ∀ (l : List ContractorEdge) (k : Nat × Nat × Int × Bool),
    l.any (fun o => sameKey o e) = true →
    orFwd (mergeFirstTotal e l) k = orFwd (e :: l) k := by
  intro l
  induction l with
  | nil => intro k h; simp at h
  | cons x xs ih =>
    intro k h
    simp only [mergeFirstTotal]
    by_cases hx : sameKey x e = true
    · rw [if_pos hx]
      have hk : ckey x = ckey e := (sameKey_iff x e).mp hx
      rw [orFwd_cons, orFwd_cons, orFwd_cons, ckey_mergeFlags]
      have hmf : (mergeFlags e x).data.forward = (x.data.forward || e.data.forward) := rfl
      rw [hmf, hk]
      rcases hd : decide (ckey e = k) with _ | _
      · simp [hd]
      · cases x.data.forward <;> cases e.data.forward <;> simp [hd]
    · rw [if_neg hx]
      have hany : xs.any (fun o => sameKey o e) = true := by
        simp only [List.any_cons, hx] at h
        simpa using h
      rw [orFwd_cons, ih k hany, orFwd_cons, orFwd_cons, orFwd_cons]
      cases decide (ckey x = k) && x.data.forward <;>
        cases decide (ckey e = k) && e.data.forward <;> simp

theorem merge_orBwd (e : ContractorEdge) :
    ∀ (l : List ContractorEdge) (k : Nat × Nat × Int × Bool),
    l.any (fun o => sameKey o e) = true →
    orBwd (mergeFirstTotal e l) k = orBwd (e :: l) k := by
  intro l
  induction l with
  | nil => intro k h; simp at h
  | cons x xs ih =>
    intro k h
    simp only [mergeFirstTotal]
    by_cases hx : sameKey x e = true
    · rw [if_pos hx]
      have hk : ckey x = ckey e := (sameKey_iff x e).mp hx
      rw [orBwd_cons, orBwd_cons, orBwd_cons, ckey_mergeFlags]
      have hmf : (mergeFlags e x).data.backward = (x.data.backward || e.data.backward) := rfl
      rw [hmf, hk]
      rcases hd : decide (ckey e = k) with _ | _
      · simp [hd]
      · cases x.data.backward <;> cases e.data.backward <;> simp [hd]
    · rw [if_neg hx]
      have hany : xs.any (fun o => sameKey o e) = true := by
        simp only [List.any_cons, hx] at h
        simpa using h
      rw [orBwd_cons, ih k hany, orBwd_cons, orBwd_cons, orBwd_cons]
      cases decide (ckey x = k) && x.data.backward <;>
        cases decide (ckey e = k) && e.data.backward <;> simp

theorem dedupGo_flags : ∀ (fuel : Nat) (l : List ContractorEdge), l.length ≤ fuel →
    ∀ r ∈ dedupGo fuel l,
    r.data.forward = orFwd l (ckey r) ∧ r.data.backward = orBwd l (ckey r) := by
  intro fuel
  induction fuel with
  | zero =>
    intro l hl r hr
    cases l with
    | nil => simp [dedupGo] at hr
    | cons e rest => simp at hl
  | succ n ih =>
    intro l hl r hr
    cases l with
    | nil => simp [dedupGo] at hr
    | cons e rest =>
      simp only [dedupGo] at hr
      split at hr
      · rename_i hcond
        have hlen : (mergeFirstTotal e rest).length ≤ n := by
          rw [mergeFirstTotal_length]
          simpa using hl
        obtain ⟨h1, h2⟩ := ih _ hlen r hr
        rw [merge_orFwd e rest _ hcond] at h1
        rw [merge_orBwd e rest _ hcond] at h2
        exact ⟨h1, h2⟩
      · rename_i hcond
        have hlen : rest.length ≤ n := by simpa using hl
        have hcond2 : ∀ x ∈ rest, sameKey x e = false := fun x hx =>
          bool_false_of_not_true (List.any_eq_false.mp (bool_false_of_not_true hcond) x hx)
        have hnone : ∀ o ∈ rest, ckey o ≠ ckey e := by
          intro o ho hk
          have h3 := hcond2 o ho
          rw [(sameKey_iff o e).mpr hk] at h3
          exact absurd h3 (by simp)
        rcases List.mem_cons.mp hr with he | he
        · subst he
          have hrestf : orFwd rest (ckey r) = false := by
            refine List.any_eq_false.mpr ?_
            intro x hx
            simp [hnone x hx]
          have hrestb : orBwd rest (ckey r) = false := by
            refine List.any_eq_false.mpr ?_
            intro x hx
            simp [hnone x hx]
          rw [orFwd_cons, orBwd_cons, hrestf, hrestb]
          simp
        · obtain ⟨h1, h2⟩ := ih rest hlen r he
          have hke : ¬ ckey e = ckey r := by
            have hmem := dedupGo_subkeys n rest hlen r he
            rcases List.mem_map.mp hmem with ⟨o, ho, hko⟩
            intro hk
            exact hnone o ho (hko.trans hk.symm)
          rw [orFwd_cons, orBwd_cons]
          simp only [hke, decide_eq_true_eq, decide_eq_false_iff_not, not_false_eq_true,
            decide_eq_false, Bool.false_and, Bool.false_or]
          exact ⟨h1, h2⟩

theorem dedupLoop_flags (l : List ContractorEdge) : ∀ r ∈ dedupLoop l,
    r.data.forward = orFwd l (ckey r) ∧ r.data.backward = orBwd l (ckey r) :=
  dedupGo_flags l.length l le_rfl

/-! Membership characterization of the committed re-scan shortcuts. -/

theorem rescanList_pair_mem_iff (node source : Nat) (inD : ContractorEdgeData)
    (keyOf : Nat → Int) (outs : List AdjEdge) (outE : AdjEdge)
    (hmem : outE ∈ outs) (hf : outE.data.forward = true) (hne : outE.target ≠ node) :
    (fwdShortcut node source inD outE ∈ rescanList node source inD keyOf outs
      ∧ bwdShortcut node source inD outE ∈ rescanList node source inD keyOf outs)
    ↔ inD.weight + outE.data.weight < keyOf outE.target := by
  constructor
  · rintro ⟨h1, _⟩
    rcases mem_concatMap.mp h1 with ⟨oE, hoE, hin⟩
    have hfil := List.mem_filter.mp hoE
    have hcond := hfil.2
    simp only [Bool.and_eq_true, bne_iff_ne, decide_eq_true_eq] at hcond
    rcases (by simpa using hin :
        fwdShortcut node source inD outE = fwdShortcut node source inD oE
          ∨ fwdShortcut node source inD outE = bwdShortcut node source inD oE) with he | he
    · simp only [fwdShortcut, mkContractorEdge, ContractorEdge.mk.injEq,
        ContractorEdgeData.mk.injEq, true_and, and_true] at he
      obtain ⟨htg, hwt, -⟩ := he
      rw [hwt, htg]
      exact hcond.2
    · simp [fwdShortcut, bwdShortcut, mkContractorEdge] at he
  · intro hc
    have hfil : outE ∈ outs.filter (fun oE => oE.data.forward && oE.target != node
        && decide (inD.weight + oE.data.weight < keyOf oE.target)) := by
      refine List.mem_filter.mpr ⟨hmem, ?_⟩
      simp [hf, hne, hc]
    exact ⟨mem_concatMap.mpr ⟨outE, hfil, by simp⟩,
      mem_concatMap.mpr ⟨outE, hfil, by simp⟩⟩

/-! Characterization of the `Run` invocations of a whole `ContractNode` call. -/

theorem contractNode_runs_eq (run : RunFn) (sim : Bool) (g : Graph) (node : Nat)
    (nw : List Int) (s : ContractionStats) (old : List ContractorEdge) :
    (contractNode run sim g node nw (some s) old).map (fun st => st.runs)
      = some (specRuns sim g node) := by
  have hb : (sim && (some s : Option ContractionStats).isNone) = false := by simp
  rw [contractNode, contractLoop_eq_pure run sim g node _ _ hb]
  simp [contract_foldl_runs, specRuns]

theorem specHeap_nodes_nodup (node source : Nat) (outs : List AdjEdge) :
    ((specHeap node source outs).map Prod.fst).Nodup := by
  have hmap : ∀ l : List Nat,
      (l.map fun t => ((t : Nat), INVALID_EDGE_WEIGHT)).map Prod.fst = l := by
    intro l
    induction l with
    | nil => rfl
    | cons x xs ih => simp [ih]
  have hmapeq : (specHeap node source outs).map Prod.fst
      = source :: registerTargets [source] (rawCandTargets node source outs) := by
    simp only [specHeap, List.map_cons]
    rw [hmap]
  rw [hmapeq]
  refine List.nodup_cons.mpr ⟨?_, ?_⟩
  · intro hmem
    exact registerTargets_not_mem_seen _ _ source hmem (by simp)
  · exact registerTargets_nodup (rawCandTargets node source outs) [source]

/-! Self-loop records at the contracted node are no-ops for every loop of
`ContractNode`. -/

theorem scanStep_self_id (sim : Bool) (node source : Nat) (inD : ContractorEdgeData)
    (st : ScanState) (e : AdjEdge) (ht : e.target = node) :
    scanStep sim node source inD st e = st := by
  rcases hf : e.data.forward with _ | _
  · simp [scanStep, hf]
  · simp [scanStep, hf, ht]

theorem rescanStep_self_id (sim : Bool) (node source : Nat) (inD : ContractorEdgeData)
    (keyOf : Nat → Int) (st : ContractionStats × List ContractorEdge) (e : AdjEdge)
    (ht : e.target = node) :
    rescanStep sim node source inD keyOf st e = st := by
  rcases hf : e.data.forward with _ | _
  · simp [rescanStep, hf]
  · simp [rescanStep, hf, ht]

theorem processInEdge_filter_selfloops (run : RunFn) (sim : Bool) (g : Graph) (node : Nat)
    (inE : AdjEdge) (st : CNState) :
    processInEdge run sim (filterSelfLoops g node) node inE st
      = processInEdge run sim g node inE st := by
  have hadj : (filterSelfLoops g node).adj node
      = (g.adj node).filter (fun e => e.target != node) := by
    simp [filterSelfLoops]
  have hscan : ∀ st2 : ScanState,
      ((g.adj node).filter (fun e => e.target != node)).foldl
          (scanStep sim node inE.target inE.data) st2
        = (g.adj node).foldl (scanStep sim node inE.target inE.data) st2 := by
    intro st2
    refine foldl_filter_id (g.adj node) st2 ?_
    intro st3 e hmem hbe
    exact scanStep_self_id sim node inE.target inE.data st3 e (by simpa using hbe)
  have hrescan : ∀ (keyOf : Nat → Int) (st2 : ContractionStats × List ContractorEdge),
      ((g.adj node).filter (fun e => e.target != node)).foldl
          (rescanStep sim node inE.target inE.data keyOf) st2
        = (g.adj node).foldl (rescanStep sim node inE.target inE.data keyOf) st2 := by
    intro keyOf st2
    refine foldl_filter_id (g.adj node) st2 ?_
    intro st3 e hmem hbe
    exact rescanStep_self_id sim node inE.target inE.data keyOf st3 e (by simpa using hbe)
  simp only [processInEdge, hadj, hscan, hrescan]

theorem contractStepCore_filter_selfloops (run : RunFn) (sim : Bool) (g : Graph)
    (node : Nat) (st : CNState) (inE : AdjEdge) :
    contractStepCore run sim (filterSelfLoops g node) node st inE
      = contractStepCore run sim g node st inE := by
  simp only [contractStepCore, processInEdge_filter_selfloops]

theorem contract_foldl_selfloops_some (run : RunFn) (sim : Bool) (g : Graph) (node : Nat)
    (statsNull : Bool) :
    ∀ (l : List AdjEdge) (st : CNState), (∀ e ∈ l, e.target = node) →
    l.foldl (contractStep run sim g node statsNull) (some st)
      = some (l.foldl (contractStepCore run sim g node) st) := by
  intro l
  induction l with
  | nil => intro st _; rfl
  | cons e rest ih =>
    intro st hall
    have ht : e.target = node := hall e (by simp)
    have hstep : contractStep run sim g node statsNull (some st) e
        = some (contractStepCore run sim g node st e) := by
      simp [contractStep, ht]
    simp only [List.foldl_cons]
    rw [hstep]
    exact ih (contractStepCore run sim g node st e) fun e2 he2 => hall e2 (by simp [he2])

/-! Membership characterization of the registered goals. -/

theorem registerTargets_mem_iff : ∀ (ts seen : List Nat) (t : Nat),
    t ∈ registerTargets seen ts ↔ (t ∈ ts ∧ t ∉ seen) := by
  intro ts
  induction ts with
  | nil => intro seen t; simp [registerTargets]
  | cons x xs ih =>
    intro seen t
    simp only [registerTargets]
    split
    · rename_i hx
      rw [ih]
      simp only [List.mem_cons]
      constructor
      · rintro ⟨htx, hts⟩
        exact ⟨Or.inr htx, hts⟩
      · rintro ⟨hor, hts⟩
        rcases hor with he | he
        · exact absurd (he ▸ hx) hts
        · exact ⟨he, hts⟩
    · rename_i hx
      simp only [List.mem_cons, ih]
      constructor
      · rintro (he | ⟨hts, hnseen⟩)
        · subst he
          exact ⟨Or.inl rfl, hx⟩
        · refine ⟨Or.inr hts, fun hseen => hnseen (by simp [hseen])⟩
      · rintro ⟨hor, hts⟩
        rcases hor with he | he
        · exact Or.inl he
        · by_cases htx : t = x
          · exact Or.inl htx
          · exact Or.inr ⟨he, by simp [hts, htx]⟩

theorem specHeap_map_fst (node source : Nat) (outs : List AdjEdge) :
    (specHeap node source outs).map Prod.fst
      = source :: registerTargets [source] (rawCandTargets node source outs) := by
  have hmap : ∀ l : List Nat,
      (l.map fun t => ((t : Nat), INVALID_EDGE_WEIGHT)).map Prod.fst = l := by
    intro l
    induction l with
    | nil => rfl
    | cons x xs ih => simp [ih]
  simp only [specHeap, List.map_cons]
  rw [hmap]

theorem rawCandTargets_ne_source (node source : Nat) (outs : List AdjEdge) :
    ∀ t ∈ rawCandTargets node source outs, t ≠ source := by
  intro t ht
  simp only [rawCandTargets, List.mem_map] at ht
  rcases ht with ⟨oE, hoE, rfl⟩
  have hc := (List.mem_filter.mp hoE).2
  simp only [Bool.and_eq_true, bne_iff_ne] at hc
  exact hc.2

theorem specHeap_mem_iff (node source t : Nat) (outs : List AdjEdge) :
    t ∈ (specHeap node source outs).map Prod.fst
      ↔ (t = source ∨ t ∈ rawCandTargets node source outs) := by
  rw [specHeap_map_fst]
  simp only [List.mem_cons, registerTargets_mem_iff]
  constructor
  · rintro (he | ⟨hts, -⟩)
    · exact Or.inl he
    · exact Or.inr hts
  · rintro (he | hts)
    · exact Or.inl he
    · exact Or.inr ⟨hts, by simp [rawCandTargets_ne_source node source outs t hts]⟩

/-! The claim theorems. -/

/-- C1: In real-mode `ContractNode`, for every backward-traversable incoming
edge `(source → n)` and every forward-traversable outgoing edge `(n → target)`
with `target` distinct from `n` and from `source`, the re-scan of lines
237-282 commits the pair of shortcut records — a source→target edge with only
the forward flag set and a target→source edge with only the backward flag set,
both marked as shortcuts with via-node `n`, weight and duration equal to the
sums, original-edge count equal to the sum — exactly when
`in.weight + out.weight` is strictly less than the witness search's settled
distance `GetKey(target)` read off the post-run heap `heap1`. -/
theorem contractNode_rescan_commits_iff (g : Graph) (node : Nat) (inE outE : AdjEdge)
    (heap1 : List HeapEntry) (s0 : ContractionStats)
    (hin : inE.target ≠ node) (hbwd : inE.data.backward = true)
    (hmem : outE ∈ g.adj node) (hf : outE.data.forward = true)
    (hne : outE.target ≠ node) (hns : outE.target ≠ inE.target) :
    (mkContractorEdge inE.target outE.target (inE.data.weight + outE.data.weight)
        (inE.data.duration + outE.data.duration)
        (outE.data.originalEdges + inE.data.originalEdges) node true true false
        ∈ ((g.adj node).foldl
            (rescanStep false node inE.target inE.data (getKey heap1)) (s0, [])).2
      ∧ mkContractorEdge outE.target inE.target (inE.data.weight + outE.data.weight)
        (inE.data.duration + outE.data.duration)
        (outE.data.originalEdges + inE.data.originalEdges) node true false true
        ∈ ((g.adj node).foldl
            (rescanStep false node inE.target inE.data (getKey heap1)) (s0, [])).2)
    ↔ inE.data.weight + outE.data.weight < getKey heap1 outE.target := by
  rw [rescan_foldl_real node inE.target inE.data (getKey heap1) (g.adj node) s0 []]
  exact rescanList_pair_mem_iff node inE.target inE.data (getKey heap1) (g.adj node)
    outE hmem hf hne

/-- Witness for C1 on the concrete graph `gPath`: the settled distance to node
2 is infinite, so the pair is committed. -/
theorem contractNode_rescan_commits_iff_witness :
    ((1 : Nat) ≠ 0) ∧ ((2 : Nat) ≠ 1) ∧
    ((mkContractorEdge 1 2 (2 + 3) (2 + 3) (1 + 1) 0 true true false
        ∈ ((gPath.adj 0).foldl
            (rescanStep false 0 1 ⟨2, 2, 1, 0, false, false, true⟩
              (getKey [(1, 0), (2, INVALID_EDGE_WEIGHT)])) (zeroStats, [])).2
      ∧ mkContractorEdge 2 1 (2 + 3) (2 + 3) (1 + 1) 0 true false true
        ∈ ((gPath.adj 0).foldl
            (rescanStep false 0 1 ⟨2, 2, 1, 0, false, false, true⟩
              (getKey [(1, 0), (2, INVALID_EDGE_WEIGHT)])) (zeroStats, [])).2)
      ↔ (2 : Int) + 3 < getKey [(1, 0), (2, INVALID_EDGE_WEIGHT)] 2) :=
  ⟨by decide, by decide,
    contractNode_rescan_commits_iff gPath 0 ⟨1, ⟨2, 2, 1, 0, false, false, true⟩⟩
      ⟨2, ⟨3, 3, 1, 0, false, true, false⟩⟩ [(1, 0), (2, INVALID_EDGE_WEIGHT)] zeroStats
      (by decide) (by decide) (by decide) (by decide) (by decide) (by decide)⟩

/-- C2 (divergence evidence): on `gLoop` the loop through node 0 has weight
`3 + 4 = 7`, which is NOT strictly below `node_weights[source] =
node_weights[1] = 5`, yet `ContractNode` records it, because line 172 compares
against `node_weights[node] = node_weights[0] = 10`: the simulation bumps the
added counters by 2 and speculatively sets `node_weights[1] = 8`, and the real
pass appends the two loop shortcut records. -/
theorem contractNode_loop_check_reads_contracted_node_weight :
    ¬ ((3 : Int) + 4 < nwGet [10, 5] 1)
    ∧ ((3 : Int) + 4 < nwGet [10, 5] 0)
    ∧ (contractNode idRun true gLoop 0 [10, 5] (some zeroStats) []).map
        (fun st => (st.stats.edges_added_count, nwGet st.node_weights 1)) = some (2, 8)
    ∧ rawNewEdges idRun false gLoop 0 [10, 5] none
        = [mkContractorEdge 1 1 7 7 2 0 true true false,
            mkContractorEdge 1 1 7 7 2 0 true false true] := by
  refine ⟨by decide, by decide, by decide, by decide⟩

/-- C3: after real-mode `ContractNode`, the records appended to the thread's
`inserted_edges` buffer have pairwise distinct `(source, target, weight,
is_shortcut)` keys, and each surviving record's forward and backward flags are
the OR of the flags of all raw records sharing its key. -/
theorem contractNode_real_dedups (run : RunFn) (g : Graph) (node : Nat) (nw : List Int)
    (stats? : Option ContractionStats) (old : List ContractorEdge) (st2 : CNState)
    (h : contractNode run false g node nw stats? old = some st2) :
    (st2.inserted_edges.drop old.length).Pairwise (fun a b => ckey a ≠ ckey b)
    ∧ ∀ r ∈ st2.inserted_edges.drop old.length,
        r.data.forward = orFwd (rawNewEdges run false g node nw stats?) (ckey r)
        ∧ r.data.backward = orBwd (rawNewEdges run false g node nw stats?) (ckey r) := by
  have hb : ((false : Bool) && stats?.isNone) = false := by simp
  rw [contractNode, contractLoop_eq_pure run false g node _ _ hb] at h
  simp only [Bool.false_eq_true, if_false, Option.some.injEq] at h
  have hraw : rawNewEdges run false g node nw stats?
      = ((g.adj node).foldl (contractStepCore run false g node)
          ⟨nw, stats?.getD zeroStats, [], []⟩).inserted_edges := by
    rw [rawNewEdges, contractLoop_eq_pure run false g node _ _ hb]
  subst h
  rw [hraw]
  have hdrop : ((old ++ dedupLoop ((g.adj node).foldl (contractStepCore run false g node)
        ⟨nw, stats?.getD zeroStats, [], []⟩).inserted_edges).drop old.length)
      = dedupLoop ((g.adj node).foldl (contractStepCore run false g node)
          ⟨nw, stats?.getD zeroStats, [], []⟩).inserted_edges := List.drop_left _ _
  refine ⟨?_, ?_⟩
  · rw [show ({ (g.adj node).foldl (contractStepCore run false g node)
        ⟨nw, stats?.getD zeroStats, [], []⟩ with
        inserted_edges := old ++ dedupLoop ((g.adj node).foldl
          (contractStepCore run false g node)
            ⟨nw, stats?.getD zeroStats, [], []⟩).inserted_edges } : CNState).inserted_edges
      = old ++ dedupLoop ((g.adj node).foldl (contractStepCore run false g node)
          ⟨nw, stats?.getD zeroStats, [], []⟩).inserted_edges from rfl, hdrop]
    exact dedupLoop_pairwise _
  · intro r hr
    rw [show ({ (g.adj node).foldl (contractStepCore run false g node)
        ⟨nw, stats?.getD zeroStats, [], []⟩ with
        inserted_edges := old ++ dedupLoop ((g.adj node).foldl
          (contractStepCore run false g node)
            ⟨nw, stats?.getD zeroStats, [], []⟩).inserted_edges } : CNState).inserted_edges
      = old ++ dedupLoop ((g.adj node).foldl (contractStepCore run false g node)
          ⟨nw, stats?.getD zeroStats, [], []⟩).inserted_edges from rfl, hdrop] at hr
    exact dedupLoop_flags _ r hr

/-- Witness for C3 on the concrete graph `gDup`, whose contraction produces
four raw records that dedup into two bidirectional ones. -/
theorem contractNode_real_dedups_witness :
    contractNode idRun false gDup 0 [0, 10, 10] none [] = some stDup
    ∧ (stDup.inserted_edges.drop ([] : List ContractorEdge).length).Pairwise
        (fun a b => ckey a ≠ ckey b)
    ∧ ((mkContractorEdge 2 1 2 2 2 0 true true true).data.forward
        = orFwd (rawNewEdges idRun false gDup 0 [0, 10, 10] none)
            (ckey (mkContractorEdge 2 1 2 2 2 0 true true true))) := by
  have h : contractNode idRun false gDup 0 [0, 10, 10] none [] = some stDup := by decide
  refine ⟨h, (contractNode_real_dedups idRun gDup 0 [0, 10, 10] none [] stDup h).1, ?_⟩
  exact ((contractNode_real_dedups idRun gDup 0 [0, 10, 10] none [] stDup h).2
    (mkContractorEdge 2 1 2 2 2 0 true true true) (by decide)).1

/-- C4: simulation-mode `ContractNode` performs no graph mutation: the
embedding reads the graph purely (the call returns no graph), the
`inserted_edges` buffer is returned exactly as passed in — nothing is appended
— and any `node_weights` entry the call changes is the speculative loop update:
it sits at the source of some backward-traversable adjacent edge of the node,
matched by a forward-traversable adjacent edge back to it. -/
theorem contractNode_sim_frame (run : RunFn) (g : Graph) (node : Nat) (nw : List Int)
    (s : ContractionStats) (old : List ContractorEdge) :
    ((contractNode run true g node nw (some s) old).map (fun st => st.inserted_edges)
        = some old)
    ∧ ∀ m : Nat,
        (contractNode run true g node nw (some s) old).map
            (fun st => nwGet st.node_weights m) ≠ some (nwGet nw m) →
        m ≠ node ∧ ∃ inE ∈ g.adj node, inE.target = m ∧ inE.data.backward = true
          ∧ ∃ outE ∈ g.adj node, outE.data.forward = true ∧ outE.target = m := by
  have hb : ((true : Bool) && (some s : Option ContractionStats).isNone) = false := by simp
  rw [contractNode, contractLoop_eq_pure run true g node _ _ hb]
  constructor
  · simp [contract_foldl_inserted_sim]
  · intro m h
    refine contract_foldl_nw_frame run true g node (g.adj node)
      ⟨nw, (some s : Option ContractionStats).getD zeroStats, [], []⟩ m ?_
    intro he
    exact h (congrArg some he)

/-- Witness for C4 on the concrete graph `gLoop`: the buffer is untouched and
the only changed weight entry, node 1, is a loop endpoint. -/
theorem contractNode_sim_frame_witness :
    ((contractNode idRun true gLoop 0 [10, 5] (some zeroStats)
        [mkContractorEdge 5 6 1 1 1 0 false true false]).map (fun st => st.inserted_edges)
      = some [mkContractorEdge 5 6 1 1 1 0 false true false])
    ∧ ((1 : Nat) ≠ 0 ∧ ∃ inE ∈ gLoop.adj 0, inE.target = 1 ∧ inE.data.backward = true
        ∧ ∃ outE ∈ gLoop.adj 0, outE.data.forward = true ∧ outE.target = 1) :=
  ⟨(contractNode_sim_frame idRun gLoop 0 [10, 5] zeroStats
      [mkContractorEdge 5 6 1 1 1 0 false true false]).1,
    (contractNode_sim_frame idRun gLoop 0 [10, 5] zeroStats
      [mkContractorEdge 5 6 1 1 1 0 false true false]).2 1 (by decide)⟩

/-- C5: within `ContractNode`'s processing of one incoming edge, each
forward-traversable outgoing target distinct from the contracted node and from
the source is registered as a witness-search goal exactly once — the heap
handed to `Run` holds the source and each such target once, never twice, even
with parallel edges — and the search is invoked with the mode's search-space
budget and the maximum candidate path weight, as the `specRuns`
characterization of the recorded `Run` invocations states. -/
theorem contractNode_registers_goals_once (run : RunFn) (sim : Bool) (g : Graph)
    (node : Nat) (nw : List Int) (s : ContractionStats) (old : List ContractorEdge) :
    ((contractNode run sim g node nw (some s) old).map (fun st => st.runs)
        = some (specRuns sim g node))
    ∧ ∀ rc ∈ specRuns sim g node,
        (rc.heap.map Prod.fst).Nodup
        ∧ (∀ t : Nat, t ∈ rc.heap.map Prod.fst
            ↔ (t = rc.source ∨ t ∈ rawCandTargets node rc.source (g.adj node))) := by
  refine ⟨contractNode_runs_eq run sim g node nw s old, ?_⟩
  intro rc hrc
  rcases List.mem_map.mp hrc with ⟨inE, hmem, rfl⟩
  exact ⟨specHeap_nodes_nodup node inE.target (g.adj node),
    fun t => specHeap_mem_iff node inE.target t (g.adj node)⟩

/-- Witness for C5 on the concrete graph `gPath`. -/
theorem contractNode_registers_goals_once_witness :
    ((contractNode idRun true gPath 0 [0, 10, 10] (some zeroStats) []).map
        (fun st => st.runs) = some (specRuns true gPath 0))
    ∧ ((specRunCall true gPath 0 ⟨1, ⟨2, 2, 1, 0, false, false, true⟩⟩).heap.map
        Prod.fst).Nodup
    ∧ ((2 : Nat) ∈ (specRunCall true gPath 0
          ⟨1, ⟨2, 2, 1, 0, false, false, true⟩⟩).heap.map Prod.fst
        ↔ ((2 : Nat) = (specRunCall true gPath 0
              ⟨1, ⟨2, 2, 1, 0, false, false, true⟩⟩).source
          ∨ (2 : Nat) ∈ rawCandTargets 0 (specRunCall true gPath 0
              ⟨1, ⟨2, 2, 1, 0, false, false, true⟩⟩).source (gPath.adj 0))) :=
  ⟨(contractNode_registers_goals_once idRun true gPath 0 [0, 10, 10] zeroStats []).1,
    ((contractNode_registers_goals_once idRun true gPath 0 [0, 10, 10] zeroStats []).2
      (specRunCall true gPath 0 ⟨1, ⟨2, 2, 1, 0, false, false, true⟩⟩) (by decide)).1,
    ((contractNode_registers_goals_once idRun true gPath 0 [0, 10, 10] zeroStats []).2
      (specRunCall true gPath 0 ⟨1, ⟨2, 2, 1, 0, false, false, true⟩⟩) (by decide)).2 2⟩

/-- C6: every witness search run by `ContractNode` is invoked with a
settled-node budget of exactly 1000 in simulation mode and exactly 2000 in
real mode. -/
theorem contractNode_search_budgets (run : RunFn) (sim : Bool) (g : Graph) (node : Nat)
    (nw : List Int) (s : ContractionStats) (old : List ContractorEdge) :
    (contractNode run sim g node nw (some s) old).map
        (fun st => st.runs.all fun rc =>
          rc.searchSpaceSize == (if sim then (1000 : Int) else 2000))
      = some true := by
  have hre := contractNode_runs_eq run sim g node nw s old
  cases hc : contractNode run sim g node nw (some s) old with
  | none => rw [hc] at hre; simp at hre
  | some st =>
    rw [hc] at hre
    simp only [Option.map_some', Option.some.injEq] at hre ⊢
    rw [hre]
    refine List.all_eq_true.mpr ?_
    intro rc hrc
    rcases List.mem_map.mp hrc with ⟨inE, hmem, rfl⟩
    rcases sim with _ | _ <;>
      simp [specRunCall, SIMULATION_SEARCH_SPACE_SIZE, FULL_SEARCH_SPACE_SIZE]

/-- C7: simulating `ContractNode` without a statistics record fails fast via
the contract check of line 142: the call aborts (is `none`) exactly when
`stats` is null, the mode is simulation, and the node has at least one
adjacent edge whose other endpoint differs from it; with a statistics record,
or in real mode, no assertion fires. -/
theorem contractNode_assert_stats (run : RunFn) (sim : Bool) (g : Graph) (node : Nat)
    (nw : List Int) (stats? : Option ContractionStats) (old : List ContractorEdge) :
    (contractNode run sim g node nw stats? old).isSome = true
      ↔ (stats?.isSome = true ∨ sim = false
          ∨ (g.adj node).all (fun e => e.target == node) = true) := by
  constructor
  · intro h
    by_contra hneg
    push_neg at hneg
    obtain ⟨h1, h2, h3⟩ := hneg
    have hnone : stats? = none := by
      cases stats? with
      | none => rfl
      | some s => simp at h1
    have hsim : sim = true := by
      rcases sim with _ | _
      · exact absurd rfl h2
      · rfl
    have hex : ∃ e ∈ g.adj node, e.target ≠ node := by
      by_contra hall
      push_neg at hall
      exact h3 (List.all_eq_true.mpr (fun e he => by simp [hall e he]))
    subst hnone
    subst hsim
    rw [contractNode] at h
    have hL : contractLoop run true g node (none : Option ContractionStats).isNone
        ⟨nw, (none : Option ContractionStats).getD zeroStats, [], []⟩ = none :=
      contract_foldl_fires run g node (g.adj node) _ hex
    rw [hL] at h
    simp at h
  · intro h
    rcases h with h | h | h
    · cases stats? with
      | none => simp at h
      | some s =>
        have hb : (sim && (some s : Option ContractionStats).isNone) = false := by simp
        rw [contractNode, contractLoop_eq_pure run sim g node _ _ hb]
        simp
    · subst h
      have hb : ((false : Bool) && stats?.isNone) = false := by simp
      rw [contractNode, contractLoop_eq_pure run false g node _ _ hb]
      simp
    · have hall : ∀ e ∈ g.adj node, e.target = node := fun e he => by
        have := List.all_eq_true.mp h e he
        simpa using this
      rw [contractNode, contractLoop]
      rw [contract_foldl_selfloops_some run sim g node stats?.isNone (g.adj node) _ hall]
      simp

/-- C8: `GetThreadData` creates the worker's scratch data lazily on the first
call — always constructing it with the fixed capacity 4000 for the
witness-search instance, whatever the container's `number_of_nodes` is — and
every later call by that worker returns the same instance unchanged. -/
theorem getThreadData_lazy_fixed_capacity (n : Int) (td : ContractorThreadData) :
    (getThreadData n none
        = (mkContractorThreadData 4000, some (mkContractorThreadData 4000))
      ∧ (getThreadData n none).1.dijkstra.nodes = 4000)
    ∧ getThreadData n (some td) = (td, some td) :=
  ⟨⟨rfl, rfl⟩, rfl⟩

/-- C9: `ContractNode` skips adjacent self-loop records of the contracted node
entirely, in both modes: contracting against the graph with those records
removed yields the identical result — same statistics, same registered
witness-search goals and `Run` invocations, same inserted shortcuts, same
node-weight updates. -/
theorem contractNode_skips_selfloops (run : RunFn) (sim : Bool) (g : Graph) (node : Nat)
    (nw : List Int) (stats? : Option ContractionStats) (old : List ContractorEdge) :
    contractNode run sim g node nw stats? old
      = contractNode run sim (filterSelfLoops g node) node nw stats? old := by
  have hadj : (filterSelfLoops g node).adj node
      = (g.adj node).filter (fun e => e.target != node) := by
    simp [filterSelfLoops]
  have hloop : contractLoop run sim (filterSelfLoops g node) node stats?.isNone
        ⟨nw, stats?.getD zeroStats, [], []⟩
      = contractLoop run sim g node stats?.isNone ⟨nw, stats?.getD zeroStats, [], []⟩ := by
    rw [contractLoop, contractLoop, hadj]
    have hsteps : ∀ (acc : Option CNState) (e : AdjEdge),
        e ∈ (g.adj node).filter (fun e => e.target != node) →
        contractStep run sim (filterSelfLoops g node) node stats?.isNone acc e
          = contractStep run sim g node stats?.isNone acc e := by
      intro acc e _
      cases acc with
      | none => rfl
      | some st => simp [contractStep, contractStepCore_filter_selfloops]
    have hdropped : ∀ (acc : Option CNState) (e : AdjEdge), e ∈ g.adj node →
        (e.target != node) = false →
        contractStep run sim g node stats?.isNone acc e = acc := by
      intro acc e _ hbe
      have ht : e.target = node := by simpa using hbe
      cases acc with
      | none => rfl
      | some st => simp [contractStep, ht, contractStepCore]
    calc ((g.adj node).filter (fun e => e.target != node)).foldl
          (contractStep run sim (filterSelfLoops g node) node stats?.isNone)
          (some ⟨nw, stats?.getD zeroStats, [], []⟩)
        = ((g.adj node).filter (fun e => e.target != node)).foldl
            (contractStep run sim g node stats?.isNone)
            (some ⟨nw, stats?.getD zeroStats, [], []⟩) :=
          foldl_congr_mem _ _ hsteps
      _ = (g.adj node).foldl (contractStep run sim g node stats?.isNone)
            (some ⟨nw, stats?.getD zeroStats, [], []⟩) :=
          foldl_filter_id _ _ hdropped
  rw [contractNode, contractNode, hloop]

/-- C10: in simulation mode `ContractNode` counts every adjacent edge whose
other endpoint differs from the node — including edges that are not
traversable backward — once in `edges_deleted_count`, and adds its
original-edge count to `original_edges_deleted_count`. -/
theorem contractNode_sim_counts_all_nonloop (run : RunFn) (g : Graph) (node : Nat)
    (nw : List Int) (s : ContractionStats) (old : List ContractorEdge) :
    (contractNode run true g node nw (some s) old).map
        (fun st => (st.stats.edges_deleted_count, st.stats.original_edges_deleted_count))
      = some (s.edges_deleted_count
            + (((g.adj node).filter (fun e => e.target != node)).length : Int),
          s.original_edges_deleted_count
            + (((g.adj node).filter (fun e => e.target != node)).map
                (fun e => e.data.originalEdges)).sum) := by
  have hb : ((true : Bool) && (some s : Option ContractionStats).isNone) = false := by simp
  rw [contractNode, contractLoop_eq_pure run true g node _ _ hb]
  obtain ⟨h1, h2⟩ := contract_foldl_deleted_sim run g node (g.adj node) ⟨nw, s, [], []⟩
  simp [h1, h2]

end OSRM
